import Mathlib

/-!
Verification of the k-way streaming merger (src/src/lua/merger.c) against its
natural-language specification.

The embedding translates `struct source`, `source_less`, `source_fetch`,
`lbox_merger_start`, `lbox_merger_next`, `lbox_merger_new` and
`free_sources` into Lean.  Components of the repository that are not under
src/ (`salad/heap.h`, `box_tuple_compare`, `key_def_new`,
`field_type_by_name`) are modelled from the spec, each marked as such in its
doc comment.
-/

set_option maxHeartbeats 1000000

namespace MergerModel

/-- A tuple: per the spec a self-describing binary record; we model it as its
list of integer fields (spec key parts of integer type). -/
abbrev Tuple := List Int

/-- Reading field `i` of a tuple. -/
def fieldGet (t : Tuple) (i : Nat) : Int := t.getD i 0

/-- Modelled from the spec: `box_tuple_compare` (box/tuple.h, not under src/)
compares two tuples part by part: "the first differing part determines the
sign", returning negative/zero/positive.  The key definition is the list of
zero-based field indices of its (integer typed) parts. -/
def tupleCompare (kd : List Nat) (a b : Tuple) : Int :=
  match kd with
  | [] => 0
  | f :: rest =>
    if fieldGet a f < fieldGet b f then -1
    else if fieldGet b f < fieldGet a f then 1
    else tupleCompare rest a b

/-- `struct source` (merger.c:72-80): the head tuple (`tuple`, NULL = `none`),
the not-yet-consumed records of its producer, and the number of tuple
references currently held through `box_tuple_ref` (merger.c:146). -/
structure Source where
  head : Option Tuple
  rest : List Tuple
  refs : Nat
deriving DecidableEq

/-- The default for out-of-range cursor array accesses. -/
def d0 : Source := ⟨none, [], 0⟩

/-- `source_fetch` (merger.c:119-147): `source->tuple = NULL`; if the producer
is exhausted, return with a `none` head; otherwise read one record, install it
as the head and acquire one reference (`box_tuple_ref`). -/
def source_fetch (s : Source) : Source :=
  match s.rest with
  | [] => { head := none, rest := [], refs := s.refs }
  | t :: ts => { head := some t, rest := ts, refs := s.refs + 1 }

/-- `struct merger` (merger.c:84-92): the cursor array, the heap (as the list
of member cursor indices), the direction sign `order` and the key
definition. -/
structure Merger where
  sources : List Source
  heap : List Nat
  order : Int
  keyDef : List Nat
deriving DecidableEq

/-- Cursor array access (`merger->sources[i]`). -/
def getSource (m : Merger) (i : Nat) : Source := m.sources.getD i d0

/-- `source_less` (merger.c:97-113): both heads NULL - not less; left NULL -
not less; right NULL - less; otherwise `merger->order * box_tuple_compare(...)
< 0`. -/
def source_less (order : Int) (kd : List Nat) (a b : Source) : Bool :=
  match a.head, b.head with
  | none, none => false
  | none, some _ => false
  | some _, none => true
  | some ta, some tb => decide (order * tupleCompare kd ta tb < 0)

/-- One step of the minimum fold used to model the heap top. -/
def foldMinStep (lt : Nat → Nat → Bool) (best : Option Nat) (i : Nat) : Option Nat :=
  match best with
  | none => some i
  | some j => if lt i j then some i else some j

/-- Minimum of a list of indices under a boolean strict order. -/
def foldMin (lt : Nat → Nat → Bool) (l : List Nat) : Option Nat :=
  l.foldl (foldMinStep lt) none

/-- Modelled from the spec: `merger_heap_top` of the binary min-heap
(salad/heap.h, not under src/) inspects the minimum heap member under the
`source_less` predicate; ties are broken arbitrarily (we take the leftmost
minimal member). -/
def heapTop (m : Merger) : Option Nat :=
  foldMin (fun i j => source_less m.order m.keyDef (getSource m i) (getSource m j)) m.heap

/-- The cursor update done by `lbox_merger_next` on the heap-top cursor:
`box_tuple_unref(source->tuple)` (merger.c:293, the merger gives up its
reference as the tuple is emitted) followed by `source_fetch`
(merger.c:294). -/
def advSource (s : Source) : Source :=
  source_fetch { s with refs := s.refs - 1 }

/-- The merger state after `lbox_merger_next` advanced the heap-top cursor
`i`: the cursor is re-fetched, then deleted from the heap if its new head is
NULL and rebalanced (`merger_heap_update`, membership unchanged) otherwise
(merger.c:302-305). -/
def nextMerger (m : Merger) (i : Nat) : Merger :=
  let s2 := advSource (getSource m i)
  { m with
    sources := m.sources.set i s2,
    heap := if s2.head.isNone then m.heap.erase i else m.heap }

/-- `lbox_merger_next` (merger.c:280-307): empty heap - end of stream
(`none`); otherwise emit the head of the heap-top cursor and advance that
cursor. -/
def merger_next (m : Merger) : Option Tuple × Merger :=
  match heapTop m with
  | none => (none, m)
  | some i => ((getSource m i).head, nextMerger m i)

/-- The direction sign computed by `lbox_merger_start` (merger.c:188):
`lua_tointeger(L, 3) >= 0 ? 1 : -1`. -/
def dirSign (dir : Int) : Int := if 0 ≤ dir then 1 else -1

/-- A fresh cursor for a producer supplying the record sequence `seq`,
immediately fetched once, as `lbox_merger_start` does (merger.c:259-260). -/
def initSource (seq : List Tuple) : Source :=
  source_fetch { head := none, rest := seq, refs := 0 }

/-- The merger state after a successful `lbox_merger_start` attached one
cursor per supplied record sequence: every cursor was fetched once and every
cursor with a non-NULL head was inserted into the heap (merger.c:259-274). -/
def startState (kd : List Nat) (seqs : List (List Tuple)) (dir : Int) : Merger :=
  let sources := seqs.map initSource
  { sources := sources
    heap := (List.range sources.length).filter fun i => ((sources.getD i d0).head).isSome
    order := dirSign dir
    keyDef := kd }

/-- The tuples emitted by at most `fuel` repeated `lbox_merger_next` calls,
stopping at end-of-stream. -/
def run : Nat → Merger → List Tuple
  | 0, _ => []
  | fuel + 1, m =>
    match merger_next m with
    | (none, _) => []
    | (some t, m2) => t :: run fuel m2

/-- The merger state after `k` calls to `lbox_merger_next`. -/
def stepN : Nat → Merger → Merger
  | 0, m => m
  | k + 1, m => stepN k (merger_next m).2

/-- The multiset of tuples a cursor still holds (head slot plus unread
records). -/
def contents (s : Source) : Multiset Tuple := ((s.head.toList ++ s.rest : List Tuple) : Multiset Tuple)

/-- All tuples still held by the merger. -/
def mergerContents (m : Merger) : Multiset Tuple := (m.sources.map contents).sum

/-- Number of tuples a cursor still holds. -/
def srcSize (s : Source) : Nat := (s.head.toList ++ s.rest).length

/-- Total number of tuples still held by the merger. -/
def mergerSize (m : Merger) : Nat := (m.sources.map srcSize).sum

/-- The run order: `a` precedes (or ties) `b` in the merge order of a run with
direction sign `order`. -/
def runLe (order : Int) (kd : List Nat) (a b : Tuple) : Prop :=
  order * tupleCompare kd a b ≤ 0

instance (order : Int) (kd : List Nat) (a b : Tuple) : Decidable (runLe order kd a b) :=
  inferInstanceAs (Decidable (order * tupleCompare kd a b ≤ 0))

/-- The record sequence a cursor still carries, head first. -/
def srcList (s : Source) : List Tuple := s.head.toList ++ s.rest

/-- Structural invariant of a merger between external operations, from the
spec's merger invariants: a cursor is in the heap exactly when its head is
non-`none`, the heap holds no duplicates, and a drained cursor has no unread
records. -/
def Inv0 (m : Merger) : Prop :=
  (∀ i ∈ m.heap, i < m.sources.length ∧ (getSource m i).head.isSome) ∧
  (∀ i < m.sources.length, (getSource m i).head.isSome → i ∈ m.heap) ∧
  m.heap.Nodup ∧
  (∀ s ∈ m.sources, s.head = none → s.rest = [])

instance (m : Merger) : Decidable (Inv0 m) :=
  inferInstanceAs (Decidable
    ((∀ i ∈ m.heap, i < m.sources.length ∧ (getSource m i).head.isSome) ∧
     (∀ i < m.sources.length, (getSource m i).head.isSome → i ∈ m.heap) ∧
     m.heap.Nodup ∧
     (∀ s ∈ m.sources, s.head = none → s.rest = [])))

/-- Every cursor's record sequence is sorted in the run order. -/
def SortedSrcs (m : Merger) : Prop :=
  ∀ s ∈ m.sources, List.Chain' (runLe m.order m.keyDef) (srcList s)

instance (m : Merger) : Decidable (SortedSrcs m) :=
  inferInstanceAs (Decidable
    (∀ s ∈ m.sources, List.Chain' (runLe m.order m.keyDef) (srcList s)))

/-- Reference-count invariant: a cursor holds exactly one tuple reference per
occupied head slot. -/
def RefsOK (m : Merger) : Prop :=
  ∀ s ∈ m.sources, s.refs = if s.head.isSome then 1 else 0

instance (m : Merger) : Decidable (RefsOK m) :=
  inferInstanceAs (Decidable
    (∀ s ∈ m.sources, s.refs = if s.head.isSome then 1 else 0))

/-- Total number of tuple references held by the merger. -/
def totalRefs (m : Merger) : Nat := (m.sources.map Source.refs).sum

/-- Number of live (not yet drained) cursors. -/
def liveCount (m : Merger) : Nat := (m.sources.filter fun s => s.head.isSome).length

/-- The spec's less-predicate, written from the four numbered cases of
spec section 4.3: both `none` - not less; `a` `none` - not less (drained
cursors sink); `b` `none` - less (live cursors rise); otherwise
direction times compare negative. -/
def spec_less (direction : Int) (kd : List Nat) (a b : Source) : Bool :=
  if a.head = none ∧ b.head = none then false
  else if a.head = none then false
  else if b.head = none then true
  else decide (direction * tupleCompare kd (a.head.getD []) (b.head.getD []) < 0)

/-- A shallow msgpack value, enough to express the shape checks the buffer
header decode performs (merger.c:248-256). -/
inductive MpVal where
  | mpMap (entries : List (MpVal × MpVal))
  | mpUint (n : Nat)
  | mpArray (count : Nat)
  | mpOther

/-- `IPROTO_DATA` (box/iproto_constants.h). -/
def IPROTO_DATA : Nat := 48

/-- The buffer-header shape check of `lbox_merger_start` (merger.c:248-252):
outer value a map, map size 1, key a uint equal to `IPROTO_DATA`, value an
array; any deviation is an invalid merge source. -/
def validHeader : MpVal → Bool
  | .mpMap [(k, v)] =>
    match k, v with
    | .mpUint n, .mpArray _ => n == IPROTO_DATA
    | _, _ => false
  | _ => false

/-- One entry of the Lua source table, as `lbox_merger_start` classifies it
(merger.c:200-215): nil stops the loop; a function is a function source; a
non-function is read with `lua_topointer` - a value that is not convertible
to a pointer stops the loop (`nonptr`), otherwise it is a buffer, either
empty (`ibuf_used == 0`, header `none`) or carrying a header value followed
by records. -/
inductive Entry where
  | nil
  | func (seq : List Tuple)
  | buf (header : Option MpVal) (records : List Tuple)
  | nonptr

/-- The source-fetch loop of `lbox_merger_start` (merger.c:197-275), fueled:
`count` cursors are attached so far, the next table index read is
`count + 1`; `none` means the fuel ran out with the loop still running.  An
empty buffer triggers the bare `continue` of merger.c:214, which does not
advance `count`.  A bad buffer header frees all sources and raises
"Invalid merge source" (`.error`). -/
def startLoop (kd : List Nat) (tbl : Nat → Entry) :
    Nat → Nat → List Source → List Nat → Option (Except Unit (List Source × List Nat))
  | 0, _, _, _ => none
  | fuel + 1, count, srcs, heap =>
    match tbl (count + 1) with
    | .nil => some (.ok (srcs, heap))
    | .nonptr => some (.ok (srcs, heap))
    | .buf none _ => startLoop kd tbl fuel count srcs heap
    | .buf (some hdr) records =>
      if validHeader hdr then
        let s := initSource records
        startLoop kd tbl fuel (count + 1) (srcs ++ [s])
          (heap ++ if s.head.isSome then [count] else [])
      else some (.error ())
    | .func seq =>
      let s := initSource seq
      startLoop kd tbl fuel (count + 1) (srcs ++ [s])
        (heap ++ if s.head.isSome then [count] else [])

/-- An entry that attaches a cursor and advances the loop index: a function,
or a non-empty buffer whose header passes the shape check. -/
def attachable : Entry → Bool
  | .func _ => true
  | .buf (some h) _ => validHeader h
  | _ => false

/-- An entry at which the loop stops and returns success: nil, or a value
`lua_topointer` maps to NULL. -/
def stopEntry : Entry → Bool
  | .nil => true
  | .nonptr => true
  | _ => false

/-- C-level state of `merger->sources`: NULL (as calloc leaves it), a live
allocation, or dangling - freed by `free_sources` (merger.c:161), which does
not clear the pointer. -/
inductive PtrState where
  | null
  | alloc
  | dangling
deriving DecidableEq

/-- A merger together with the C state of its cursor-array pointer. -/
structure CMerger where
  logical : Merger
  ptr : PtrState
deriving DecidableEq

/-- What `free(merger->sources)` inside `free_sources` does to the pointer
state: `free(NULL)` is a no-op; freeing a live allocation leaves the stale
pointer value behind; freeing a dangling pointer is a double free
(undefined behavior). -/
def free_sources_ptr : PtrState → Option PtrState
  | .null => some .null
  | .alloc => some .dangling
  | .dangling => none

/-- Outcome of one `lbox_merger_start` call at the C level. -/
inductive CStartOutcome where
  | ok (m : CMerger)
  | invalidSource (m : CMerger)
  | doubleFree
  | hang
deriving DecidableEq

/-- `lbox_merger_start` (merger.c:180-278) including its memory discipline:
set `merger->order`; `free_sources` (whose `free(merger->sources)` is a
double free if the pointer already dangles); allocate the fresh cursor
array; run the fetch loop.  On a bad header the loop's error path runs
`free_sources` again and raises, leaving an empty merger whose pointer
dangles (merger.c:253-254). -/
def lboxStart (m : CMerger) (tbl : Nat → Entry) (dir : Int) (fuel : Nat) : CStartOutcome :=
  match free_sources_ptr m.ptr with
  | none => .doubleFree
  | some _ =>
    match startLoop m.logical.keyDef tbl fuel 0 [] [] with
    | none => .hang
    | some (.error _) =>
      .invalidSource ⟨⟨[], [], dirSign dir, m.logical.keyDef⟩, .dangling⟩
    | some (.ok (srcs, heap)) =>
      .ok ⟨⟨srcs, heap, dirSign dir, m.logical.keyDef⟩, .alloc⟩

/-- A merger as `lbox_merger_new` leaves it: `calloc` zeroes every field, so
the cursor array pointer is NULL and there are no sources. -/
def freshCMerger (kd : List Nat) : CMerger :=
  ⟨⟨[], [], 0, kd⟩, .null⟩

/-- One key-part descriptor as read from the Lua table by `lbox_merger_new`
(merger.c:345-384): the `fieldno`, `type` and `is_nullable` table fields,
each possibly absent (nil). -/
structure PartDesc where
  fieldno : Option Int
  fieldType : Option String
  nullable : Option Bool
deriving DecidableEq

/-- Modelled from the spec: `field_type_by_name` (box/field_def.h, not under
src/) recognises exactly the closed enumeration of field types of spec
section 3. -/
def recognizedFieldType (s : String) : Bool :=
  ["integer", "unsigned", "double", "string", "boolean", "binary",
   "array", "map", "nil", "any"].contains s

/-- 2^32, the modulus of the `uint32_t` `fieldno` field of
`struct key_part_def`. -/
def UINT32_MOD : Nat := 4294967296

/-- The stored field index: `parts[count].fieldno = lua_tointeger(L, -1) - 1`
(merger.c:354), a signed value assigned to a `uint32_t`, hence reduced
modulo 2^32. -/
def storedFieldno (v : Int) : Nat := ((v - 1) % (UINT32_MOD : Int)).toNat

/-- A parsed `struct key_part_def`. -/
structure KeyPartDef where
  fieldno : Nat
  fieldType : String
  nullable : Bool
  collId : Option Nat
deriving DecidableEq

/-- Errors of `lbox_merger_new`: `invalidKeyPart` covers "fieldno must not be
nil", "type must not be nil" and "Unknown field type"; `keyDefFail` is
"Cannot create merger->key_def". -/
inductive NewError where
  | invalidKeyPart
  | keyDefFail
deriving DecidableEq

/-- Parsing one descriptor (merger.c:345-384): missing `fieldno` or `type`
raises; an unrecognised type name raises; `is_nullable` defaults to false;
`coll_id` is always `COLL_NONE`. -/
def parsePart (d : PartDesc) : Except NewError KeyPartDef :=
  match d.fieldno with
  | none => .error .invalidKeyPart
  | some v =>
    match d.fieldType with
    | none => .error .invalidKeyPart
    | some ty =>
      if recognizedFieldType ty then
        .ok { fieldno := storedFieldno v, fieldType := ty,
              nullable := d.nullable.getD false, collId := none }
      else .error .invalidKeyPart

/-- Outcome of `lbox_merger_new`: a parsed part list or key definition, a
raised error, or undefined behavior reached through the uint16_t capacity
wrap (see `newLoop`). -/
inductive NewResult where
  | ok (parts : List KeyPartDef)
  | err (e : NewError)
  | undefinedBehavior
deriving DecidableEq

/-- The descriptor loop of `lbox_merger_new` (merger.c:324-387) with its
`uint16_t count, capacity` counters (merger.c:316).  A non-nil entry read
with `count == capacity` first doubles the capacity in uint16 arithmetic
(merger.c:332); when the doubling wraps to 0 - which happens at the 32769th
descriptor, where count == capacity == 32768 - the following
`realloc(parts, 0)` and the write of `parts[count]` are out of bounds:
undefined behavior. -/
def newLoop : List PartDesc → Nat → Nat → List KeyPartDef → NewResult
  | [], _, _, acc => .ok acc
  | d :: ds, count, capacity, acc =>
    if count = capacity then
      if capacity * 2 % 65536 = 0 then .undefinedBehavior
      else
        match parsePart d with
        | .error e => .err e
        | .ok p => newLoop ds ((count + 1) % 65536) (capacity * 2 % 65536) (acc ++ [p])
    else
      match parsePart d with
      | .error e => .err e
      | .ok p => newLoop ds ((count + 1) % 65536) capacity (acc ++ [p])

/-- Modelled from the spec: `key_def_new` (box/key_def.h, not under src/) -
"a key definition is an ordered non-empty sequence of key parts", so
construction fails exactly on an empty part list. -/
def key_def_new (parts : List KeyPartDef) : Option (List KeyPartDef) :=
  if parts.isEmpty then none else some parts

/-- `lbox_merger_new` (merger.c:309-414): run the descriptor loop from
`count = 0, capacity = 8` (merger.c:316), then build the key definition; on
any error no merger is constructed. -/
def merger_new (descs : List PartDesc) : NewResult :=
  match newLoop descs 0 8 [] with
  | .undefinedBehavior => .undefinedBehavior
  | .err e => .err e
  | .ok parts =>
    match key_def_new parts with
    | none => .err .keyDefFail
    | some kd => .ok kd

/-- Auxiliary accumulator form of the heap-top minimum fold. -/
def minAux (lt : Nat → Nat → Bool) (j : Nat) (l : List Nat) : Nat :=
  l.foldl (fun b i => if lt i b then i else b) j

/-- Executable adjacent-sortedness check in the run order. -/
def chainLe (order : Int) (kd : List Nat) : List Tuple → Bool
  | [] => true
  | [_] => true
  | a :: b :: l => decide (runLe order kd a b) && chainLe order kd (b :: l)

/-- The record sequence an attachable entry supplies. -/
def entrySeq : Entry → List Tuple
  | .func seq => seq
  | .buf _ records => records
  | _ => []

/-- A source table whose first entry is a buffer with `ibuf_used == 0`. -/
def tblEmptyBuf : Nat → Entry := fun i => if i = 1 then .buf none [] else .nil

/-- A source table whose first entry is a buffer whose header is a msgpack
array instead of the expected map (spec scenario 5). -/
def tblBadHdr : Nat → Entry := fun i =>
  if i = 1 then .buf (some (.mpArray 0)) [] else .nil

/-- The empty source table. -/
def tblNil : Nat → Entry := fun _ => .nil

/-- A table with one function source followed by nil. -/
def tblW : Nat → Entry := fun i => if i = 1 then .func [[1]] else .nil

/-- A table agreeing with `tblW` up to the stopping entry (index 2, here a
non-pointer value) but different beyond it. -/
def tblW2 : Nat → Entry := fun i =>
  if i = 1 then .func [[1]] else if i = 2 then .nonptr else .func [[99]]

section HelperLemmas

theorem tupleCompare_antisymm (kd : List Nat) (a b : Tuple) :
    tupleCompare kd b a = -tupleCompare kd a b := by
  induction kd with
  | nil => simp [tupleCompare]
  | cons f rest ih =>
    simp only [tupleCompare]
    split_ifs <;> first | omega | (rw [ih])

theorem tupleCompare_self (kd : List Nat) (a : Tuple) :
    tupleCompare kd a a = 0 := by
  have h := tupleCompare_antisymm kd a a
  omega

theorem tupleCompare_trans_le (kd : List Nat) (a b c : Tuple)
    (h1 : tupleCompare kd a b ≤ 0) (h2 : tupleCompare kd b c ≤ 0) :
    tupleCompare kd a c ≤ 0 := by
  induction kd with
  | nil => simp [tupleCompare]
  | cons f rest ih =>
    simp only [tupleCompare] at h1 h2 ⊢
    split_ifs at h1 h2 ⊢ <;> first | omega | exact ih h1 h2

theorem tupleCompare_trans_lt (kd : List Nat) (a b c : Tuple)
    (h1 : tupleCompare kd a b < 0) (h2 : tupleCompare kd b c < 0) :
    tupleCompare kd a c < 0 := by
  induction kd with
  | nil => simp [tupleCompare] at h1
  | cons f rest ih =>
    simp only [tupleCompare] at h1 h2 ⊢
    split_ifs at h1 h2 ⊢ <;> first | omega | exact ih h1 h2

theorem source_less_irrefl (order : Int) (kd : List Nat) (s : Source) :
    source_less order kd s s = false := by
  cases h : s.head with
  | none => simp [source_less, h]
  | some t => simp [source_less, h, tupleCompare_self]

theorem source_less_negtrans (order : Int) (kd : List Nat)
    (ho : order = 1 ∨ order = -1) (a b c : Source)
    (h1 : source_less order kd a b = false) (h2 : source_less order kd b c = false) :
    source_less order kd a c = false := by
  cases ha : a.head with
  | none => cases hc : c.head <;> simp [source_less, ha, hc]
  | some ta =>
    cases hb : b.head with
    | none => simp [source_less, ha, hb] at h1
    | some tb =>
      cases hc : c.head with
      | none => simp [source_less, hb, hc] at h2
      | some tc =>
        simp only [source_less, ha, hb, hc, decide_eq_false_iff_not, not_lt] at h1 h2 ⊢
        have e1 := tupleCompare_antisymm kd ta tb
        have e2 := tupleCompare_antisymm kd tb tc
        have e3 := tupleCompare_antisymm kd ta tc
        rcases ho with rfl | rfl
        · have := tupleCompare_trans_le kd tc tb ta (by omega) (by omega)
          omega
        · have := tupleCompare_trans_le kd ta tb tc (by omega) (by omega)
          omega

theorem source_less_postrans (order : Int) (kd : List Nat)
    (ho : order = 1 ∨ order = -1) (a b c : Source)
    (h1 : source_less order kd a b = true) (h2 : source_less order kd b c = true) :
    source_less order kd a c = true := by
  cases ha : a.head with
  | none => cases hb : b.head <;> simp [source_less, ha, hb] at h1
  | some ta =>
    cases hb : b.head with
    | none => simp [source_less, hb] at h2; cases hc : c.head <;> simp [source_less, hb, hc] at h2
    | some tb =>
      cases hc : c.head with
      | none => simp [source_less, ha, hc]
      | some tc =>
        simp only [source_less, ha, hb, hc, decide_eq_true_eq] at h1 h2 ⊢
        rcases ho with rfl | rfl
        · have := tupleCompare_trans_lt kd ta tb tc (by omega) (by omega)
          omega
        · have e1 := tupleCompare_antisymm kd ta tb
          have e2 := tupleCompare_antisymm kd tb tc
          have e3 := tupleCompare_antisymm kd ta tc
          have := tupleCompare_trans_lt kd tc tb ta (by omega) (by omega)
          omega

theorem minAux_cons (lt : Nat → Nat → Bool) (j x : Nat) (xs : List Nat) :
    minAux lt j (x :: xs) = minAux lt (if lt x j then x else j) xs := rfl

theorem foldl_step_some (lt : Nat → Nat → Bool) (l : List Nat) (j : Nat) :
    l.foldl (foldMinStep lt) (some j) = some (minAux lt j l) := by
  induction l generalizing j with
  | nil => rfl
  | cons x xs ih =>
    rw [List.foldl_cons, minAux_cons]
    show List.foldl (foldMinStep lt) (if lt x j then some x else some j) xs = _
    split_ifs <;> exact ih _

theorem foldMin_cons (lt : Nat → Nat → Bool) (x : Nat) (xs : List Nat) :
    foldMin lt (x :: xs) = some (minAux lt x xs) := by
  simp only [foldMin, List.foldl_cons, foldMinStep]
  exact foldl_step_some lt xs x

theorem foldMin_eq_none (lt : Nat → Nat → Bool) (l : List Nat) :
    foldMin lt l = none ↔ l = [] := by
  cases l with
  | nil => simp [foldMin]
  | cons x xs => simp [foldMin_cons]

theorem minAux_mem (lt : Nat → Nat → Bool) (j : Nat) (l : List Nat) :
    minAux lt j l = j ∨ minAux lt j l ∈ l := by
  induction l generalizing j with
  | nil => left; rfl
  | cons x xs ih =>
    rw [minAux_cons]
    by_cases h : lt x j
    · rw [if_pos h]
      rcases ih x with h2 | h2
      · right; rw [h2]; simp
      · right; exact List.mem_cons_of_mem _ h2
    · rw [if_neg h]
      rcases ih j with h2 | h2
      · left; exact h2
      · right; exact List.mem_cons_of_mem _ h2

theorem minAux_min (lt : Nat → Nat → Bool)
    (hpos : ∀ a b c, lt a b = true → lt b c = true → lt a c = true)
    (hneg : ∀ a b c, lt a b = false → lt b c = false → lt a c = false)
    (hirr : ∀ a, lt a a = false)
    (l : List Nat) :
    ∀ (j : Nat), ∀ i ∈ j :: l, lt i (minAux lt j l) = false := by
  induction l with
  | nil =>
    intro j i hi
    simp only [List.mem_singleton] at hi
    subst hi
    exact hirr i
  | cons x xs ih =>
    intro j i hi
    rw [minAux_cons]
    by_cases h : lt x j
    · rw [if_pos h]
      rcases List.mem_cons.mp hi with rfl | hi2
      · by_contra hc
        have hjres : lt i (minAux lt x xs) = true := by
          cases hlt : lt i (minAux lt x xs) with
          | false => exact absurd hlt hc
          | true => rfl
        have hxres : lt x (minAux lt x xs) = true := hpos x i _ h hjres
        have hfalse := ih x x (List.mem_cons_self x xs)
        rw [hfalse] at hxres
        exact Bool.noConfusion hxres
      · rcases List.mem_cons.mp hi2 with rfl | hi3
        · exact ih _ i (List.mem_cons_self i xs)
        · exact ih _ i (List.mem_cons_of_mem _ hi3)
    · rw [if_neg h]
      rcases List.mem_cons.mp hi with rfl | hi2
      · exact ih _ i (List.mem_cons_self i xs)
      · rcases List.mem_cons.mp hi2 with rfl | hi3
        · have hjres := ih j j (List.mem_cons_self j xs)
          have hxj : lt i j = false := by
            cases hlt : lt i j with
            | false => rfl
            | true => exact absurd hlt (by simpa using h)
          exact hneg i j _ hxj hjres
        · exact ih _ i (List.mem_cons_of_mem _ hi3)

theorem getD_set_self {α : Type} (l : List α) (i : Nat) (x d : α) (h : i < l.length) :
    (l.set i x).getD i d = x := by
  induction l generalizing i with
  | nil => simp at h
  | cons y ys ih =>
    cases i with
    | zero => rfl
    | succ n => exact ih n (by simpa using h)

theorem getD_set_ne {α : Type} (l : List α) (i j : Nat) (x d : α) (h : i ≠ j) :
    (l.set i x).getD j d = l.getD j d := by
  induction l generalizing i j with
  | nil => simp [List.set]
  | cons y ys ih =>
    cases i with
    | zero =>
      cases j with
      | zero => exact absurd rfl h
      | succ n => rfl
    | succ n =>
      cases j with
      | zero => rfl
      | succ k => exact ih n k (by omega)

theorem getD_mem {α : Type} (l : List α) (i : Nat) (d : α) (h : i < l.length) :
    l.getD i d ∈ l := by
  induction l generalizing i with
  | nil => simp at h
  | cons y ys ih =>
    cases i with
    | zero => simp [List.getD]
    | succ n => exact List.mem_cons_of_mem _ (ih n (by simpa using h))

theorem sum_map_set {α β : Type} [AddCommMonoid β] (f : α → β) (l : List α)
    (i : Nat) (x d : α) (h : i < l.length) :
    ((l.set i x).map f).sum + f (l.getD i d) = (l.map f).sum + f x := by
  induction l generalizing i with
  | nil => simp at h
  | cons y ys ih =>
    cases i with
    | zero =>
      simp only [List.set, List.map_cons, List.sum_cons, List.getD]
      show f x + (ys.map f).sum + f y = f y + (ys.map f).sum + f x
      abel
    | succ n =>
      simp only [List.set, List.map_cons, List.sum_cons, List.getD, List.getD_cons_succ]
      have hih := ih n (by simpa using h)
      show f y + ((ys.set n x).map f).sum + f (ys.getD n d) = f y + (ys.map f).sum + f x
      rw [add_assoc, hih, add_assoc]

theorem chainLe_iff (order : Int) (kd : List Nat) :
    ∀ l : List Tuple, chainLe order kd l = true ↔ List.Chain' (runLe order kd) l := by
  intro l
  induction l with
  | nil => simp [chainLe]
  | cons a l ih =>
    cases l with
    | nil => simp [chainLe]
    | cons b l2 =>
      rw [chainLe, List.chain'_cons, Bool.and_eq_true, decide_eq_true_eq]
      exact and_congr_right fun _ => ih

theorem ball_chainLe_iff (order : Int) (kd : List Nat) (seqs : List (List Tuple)) :
    seqs.all (chainLe order kd) = true ↔
      ∀ seq ∈ seqs, List.Chain' (runLe order kd) seq := by
  rw [List.all_eq_true]
  exact forall_congr' fun seq => imp_congr_right fun _ => chainLe_iff order kd seq

theorem heapTop_eq_none (m : Merger) : heapTop m = none ↔ m.heap = [] :=
  foldMin_eq_none _ _

theorem heapTop_mem (m : Merger) (i : Nat) (h : heapTop m = some i) : i ∈ m.heap := by
  cases hl : m.heap with
  | nil => rw [heapTop, hl] at h; simp [foldMin] at h
  | cons x xs =>
    rw [heapTop, hl, foldMin_cons] at h
    injection h with h
    subst h
    rcases minAux_mem (fun a b => source_less m.order m.keyDef (getSource m a) (getSource m b))
        x xs with h2 | h2
    · rw [h2]; simp
    · exact List.mem_cons_of_mem _ h2

theorem heapTop_min (m : Merger) (ho : m.order = 1 ∨ m.order = -1) (i : Nat)
    (h : heapTop m = some i) :
    ∀ j ∈ m.heap, source_less m.order m.keyDef (getSource m j) (getSource m i) = false := by
  intro j hj
  cases hl : m.heap with
  | nil => rw [hl] at hj; simp at hj
  | cons x xs =>
    rw [heapTop, hl, foldMin_cons] at h
    injection h with h
    subst h
    have hmin := minAux_min
      (fun a b => source_less m.order m.keyDef (getSource m a) (getSource m b))
      (fun a b c hab hbc => source_less_postrans m.order m.keyDef ho _ _ _ hab hbc)
      (fun a b c hab hbc => source_less_negtrans m.order m.keyDef ho _ _ _ hab hbc)
      (fun a => source_less_irrefl m.order m.keyDef _)
      xs x j (hl ▸ hj)
    exact hmin

theorem merger_next_of_top_none (m : Merger) (h : heapTop m = none) :
    merger_next m = (none, m) := by
  simp [merger_next, h]

theorem merger_next_of_top_some (m : Merger) (i : Nat) (h : heapTop m = some i) :
    merger_next m = ((getSource m i).head, nextMerger m i) := by
  simp [merger_next, h]

theorem nextMerger_heap (m : Merger) (i : Nat) : (nextMerger m i).heap =
    if (advSource (getSource m i)).head.isNone then m.heap.erase i else m.heap := rfl

theorem nextMerger_sources (m : Merger) (i : Nat) :
    (nextMerger m i).sources = m.sources.set i (advSource (getSource m i)) := rfl

theorem nextMerger_order (m : Merger) (i : Nat) : (nextMerger m i).order = m.order := rfl

theorem nextMerger_keyDef (m : Merger) (i : Nat) : (nextMerger m i).keyDef = m.keyDef := rfl

theorem nextMerger_length (m : Merger) (i : Nat) :
    (nextMerger m i).sources.length = m.sources.length := by
  rw [nextMerger_sources, List.length_set]

theorem getSource_nextMerger_self (m : Merger) (i : Nat) (h : i < m.sources.length) :
    getSource (nextMerger m i) i = advSource (getSource m i) := by
  rw [getSource, nextMerger_sources]
  exact getD_set_self _ _ _ _ h

theorem getSource_nextMerger_ne (m : Merger) (i j : Nat) (h : i ≠ j) :
    getSource (nextMerger m i) j = getSource m j := by
  rw [getSource, nextMerger_sources]
  exact getD_set_ne _ _ _ _ _ h

theorem advSource_drained (s : Source) (h : (advSource s).head = none) :
    (advSource s).rest = [] := by
  cases hr : s.rest with
  | nil => simp [advSource, source_fetch, hr]
  | cons t ts => simp [advSource, source_fetch, hr] at h

theorem Inv0_nextMerger (m : Merger) (i : Nat) (hinv : Inv0 m) (htop : heapTop m = some i) :
    Inv0 (nextMerger m i) := by
  obtain ⟨hheap1, hheap2, hnodup, hdrain⟩ := hinv
  have hmem := heapTop_mem m i htop
  obtain ⟨hilt, _⟩ := hheap1 i hmem
  refine ⟨?_, ?_, ?_, ?_⟩
  · intro j hj
    rw [nextMerger_heap] at hj
    by_cases hij : j = i
    · subst hij
      rw [nextMerger_length, getSource_nextMerger_self m j hilt]
      split_ifs at hj with hnone
      · exact absurd hj (List.Nodup.not_mem_erase hnodup)
      · refine ⟨hilt, ?_⟩
        cases hh : (advSource (getSource m j)).head with
        | none => rw [hh] at hnone; exact absurd rfl hnone
        | some t => simp [hh]
    · have hjmem : j ∈ m.heap := by
        split_ifs at hj with hnone
        · exact List.mem_of_mem_erase hj
        · exact hj
      obtain ⟨hjlt, hjsome⟩ := hheap1 j hjmem
      rw [nextMerger_length, getSource_nextMerger_ne m i j (fun he => hij he.symm)]
      exact ⟨hjlt, hjsome⟩
  · intro j hjlt hjsome
    rw [nextMerger_length] at hjlt
    rw [nextMerger_heap]
    by_cases hij : j = i
    · subst hij
      rw [getSource_nextMerger_self m j hilt] at hjsome
      have hnn : ¬ (advSource (getSource m j)).head.isNone = true := by
        cases hh : (advSource (getSource m j)).head with
        | none => rw [hh] at hjsome; simp at hjsome
        | some t => simp [hh]
      rw [if_neg hnn]
      exact hmem
    · rw [getSource_nextMerger_ne m i j (fun he => hij he.symm)] at hjsome
      have hjmem := hheap2 j hjlt hjsome
      split_ifs with hnone
      · exact (List.Nodup.mem_erase_iff hnodup).mpr ⟨hij, hjmem⟩
      · exact hjmem
  · rw [nextMerger_heap]
    split_ifs with hnone
    · exact List.Nodup.erase _ hnodup
    · exact hnodup
  · intro s hs hshead
    rw [nextMerger_sources] at hs
    rcases List.mem_or_eq_of_mem_set hs with hold | hnew
    · exact hdrain s hold hshead
    · subst hnew
      exact advSource_drained _ hshead

theorem advSource_contents (s : Source) (t : Tuple) (h : s.head = some t) :
    contents s = t ::ₘ contents (advSource s) := by
  cases hr : s.rest with
  | nil => simp [contents, advSource, source_fetch, hr, h]
  | cons u us => simp [contents, advSource, source_fetch, hr, h]

theorem advSource_size (s : Source) (t : Tuple) (h : s.head = some t) :
    srcSize s = srcSize (advSource s) + 1 := by
  cases hr : s.rest with
  | nil => simp [srcSize, advSource, source_fetch, hr, h]
  | cons u us => simp [srcSize, advSource, source_fetch, hr, h]

theorem srcList_advSource (s : Source) (t : Tuple) (h : s.head = some t) :
    srcList s = t :: srcList (advSource s) := by
  cases hr : s.rest with
  | nil => simp [srcList, advSource, source_fetch, hr, h]
  | cons u us => simp [srcList, advSource, source_fetch, hr, h]

theorem srcList_advSource_none (s : Source) (h : s.head = none) :
    srcList (advSource s) = srcList s := by
  cases hr : s.rest with
  | nil => simp [srcList, advSource, source_fetch, hr, h]
  | cons u us => simp [srcList, advSource, source_fetch, hr, h]

theorem mergerContents_next (m : Merger) (i : Nat) (t : Tuple)
    (hlt : i < m.sources.length) (h : (getSource m i).head = some t) :
    mergerContents m = t ::ₘ mergerContents (nextMerger m i) := by
  have hs := sum_map_set contents m.sources i (advSource (getSource m i)) d0 hlt
  have hc := advSource_contents (getSource m i) t h
  rw [mergerContents, mergerContents, nextMerger_sources]
  rw [show m.sources.getD i d0 = getSource m i from rfl, hc] at hs
  have hs2 : ((m.sources.set i (advSource (getSource m i))).map contents).sum +
      ({t} + contents (advSource (getSource m i))) =
      (m.sources.map contents).sum + contents (advSource (getSource m i)) := by
    rw [Multiset.singleton_add]; exact hs
  have hs3 : ((m.sources.set i (advSource (getSource m i))).map contents).sum + {t} =
      (m.sources.map contents).sum := by
    have := hs2
    rw [← add_assoc] at this
    exact add_right_cancel this
  rw [← hs3, ← Multiset.singleton_add, add_comm]

theorem mergerSize_next (m : Merger) (i : Nat) (t : Tuple)
    (hlt : i < m.sources.length) (h : (getSource m i).head = some t) :
    mergerSize m = mergerSize (nextMerger m i) + 1 := by
  have hs := sum_map_set srcSize m.sources i (advSource (getSource m i)) d0 hlt
  have hc := advSource_size (getSource m i) t h
  rw [show m.sources.getD i d0 = getSource m i from rfl, hc] at hs
  rw [mergerSize, mergerSize, nextMerger_sources]
  omega

theorem advSource_refs (s : Source) (h : s.refs = 1) :
    (advSource s).refs = if (advSource s).head.isSome then 1 else 0 := by
  cases hr : s.rest with
  | nil => simp [advSource, source_fetch, hr, h]
  | cons u us => simp [advSource, source_fetch, hr, h]

theorem RefsOK_nextMerger (m : Merger) (i : Nat) (hinv : Inv0 m)
    (htop : heapTop m = some i) (hr : RefsOK m) : RefsOK (nextMerger m i) := by
  intro s hs
  rw [nextMerger_sources] at hs
  rcases List.mem_or_eq_of_mem_set hs with hold | hnew
  · exact hr s hold
  · subst hnew
    have hmem := heapTop_mem m i htop
    obtain ⟨hilt, hisome⟩ := hinv.1 i hmem
    have hone : (getSource m i).refs = 1 := by
      have := hr (getSource m i) (getD_mem _ _ _ hilt)
      rw [this, if_pos hisome]
    exact advSource_refs _ hone

theorem SortedSrcs_nextMerger (m : Merger) (i : Nat) (hlt : i < m.sources.length)
    (hs : SortedSrcs m) : SortedSrcs (nextMerger m i) := by
  intro s hsmem
  rw [nextMerger_order, nextMerger_keyDef]
  rw [nextMerger_sources] at hsmem
  rcases List.mem_or_eq_of_mem_set hsmem with hold | hnew
  · exact hs s hold
  · subst hnew
    have hchain := hs (getSource m i) (getD_mem _ _ _ hlt)
    cases hh : (getSource m i).head with
    | none => rw [srcList_advSource_none _ hh]; exact hchain
    | some t =>
      rw [srcList_advSource _ t hh] at hchain
      exact hchain.tail

theorem nextMerger_heads_ge (m : Merger) (i : Nat) (t : Tuple)
    (hinv : Inv0 m) (ho : m.order = 1 ∨ m.order = -1) (hsort : SortedSrcs m)
    (htop : heapTop m = some i) (hhead : (getSource m i).head = some t) :
    ∀ j ∈ (nextMerger m i).heap, ∃ u, (getSource (nextMerger m i) j).head = some u ∧
      runLe m.order m.keyDef t u := by
  intro j hj
  have hmem := heapTop_mem m i htop
  obtain ⟨hilt, _⟩ := hinv.1 i hmem
  have hinv2 := Inv0_nextMerger m i hinv htop
  obtain ⟨hjlt, hjsome⟩ := hinv2.1 j hj
  by_cases hij : j = i
  · subst hij
    rw [getSource_nextMerger_self m j hilt] at hjsome ⊢
    obtain ⟨u, hu⟩ := Option.isSome_iff_exists.mp hjsome
    refine ⟨u, hu, ?_⟩
    have hchain := hsort (getSource m j) (getD_mem _ _ _ hilt)
    rw [srcList_advSource _ t hhead] at hchain
    have hsl : srcList (advSource (getSource m j)) =
        u :: (advSource (getSource m j)).rest := by
      simp [srcList, hu]
    rw [hsl] at hchain
    exact (List.chain'_cons.mp hchain).1
  · rw [getSource_nextMerger_ne m i j (fun he => hij he.symm)] at hjsome ⊢
    obtain ⟨u, hu⟩ := Option.isSome_iff_exists.mp hjsome
    refine ⟨u, hu, ?_⟩
    have hjmem : j ∈ m.heap := by
      rw [nextMerger_heap] at hj
      split_ifs at hj
      · exact List.mem_of_mem_erase hj
      · exact hj
    have hless := heapTop_min m ho i htop j hjmem
    rw [source_less] at hless
    rw [hu, hhead] at hless
    simp only [decide_eq_false_iff_not, not_lt] at hless
    have he := tupleCompare_antisymm m.keyDef u t
    rw [runLe]
    rcases ho with hoe | hoe <;> rw [hoe] at hless ⊢ <;> omega

theorem run_chain_from (fuel : Nat) : ∀ (m : Merger) (t : Tuple),
    Inv0 m → (m.order = 1 ∨ m.order = -1) → SortedSrcs m →
    (∀ j ∈ m.heap, ∃ u, (getSource m j).head = some u ∧ runLe m.order m.keyDef t u) →
    List.Chain' (runLe m.order m.keyDef) (t :: run fuel m) := by
  induction fuel with
  | zero => intro m t _ _ _ _; simp [run]
  | succ n ih =>
    intro m t hinv ho hsort hb
    cases htop : heapTop m with
    | none => simp [run, merger_next_of_top_none m htop]
    | some i =>
      have hmem := heapTop_mem m i htop
      obtain ⟨hilt, hisome⟩ := hinv.1 i hmem
      obtain ⟨u, hu⟩ := Option.isSome_iff_exists.mp hisome
      have hrun : run (n + 1) m = u :: run n (nextMerger m i) := by
        simp [run, merger_next_of_top_some m i htop, hu]
      rw [hrun]
      obtain ⟨u', hu', hle⟩ := hb i hmem
      rw [hu] at hu'
      injection hu' with hue
      subst hue
      refine List.chain'_cons.mpr ⟨hle, ?_⟩
      have hnext := ih (nextMerger m i) u (Inv0_nextMerger m i hinv htop)
        (by rw [nextMerger_order]; exact ho)
        (SortedSrcs_nextMerger m i hilt hsort)
        (by
          have := nextMerger_heads_ge m i u hinv ho hsort htop hu
          rw [show (nextMerger m i).order = m.order from rfl,
              show (nextMerger m i).keyDef = m.keyDef from rfl]
          exact this)
      rw [show (nextMerger m i).order = m.order from rfl,
          show (nextMerger m i).keyDef = m.keyDef from rfl] at hnext
      exact hnext

theorem run_chain (fuel : Nat) (m : Merger) (hinv : Inv0 m)
    (ho : m.order = 1 ∨ m.order = -1) (hsort : SortedSrcs m) :
    List.Chain' (runLe m.order m.keyDef) (run fuel m) := by
  cases fuel with
  | zero => simp [run]
  | succ n =>
    cases htop : heapTop m with
    | none => simp [run, merger_next_of_top_none m htop]
    | some i =>
      have hmem := heapTop_mem m i htop
      obtain ⟨hilt, hisome⟩ := hinv.1 i hmem
      obtain ⟨u, hu⟩ := Option.isSome_iff_exists.mp hisome
      have hrun : run (n + 1) m = u :: run n (nextMerger m i) := by
        simp [run, merger_next_of_top_some m i htop, hu]
      rw [hrun]
      have hnext := run_chain_from n (nextMerger m i) u (Inv0_nextMerger m i hinv htop)
        (by rw [nextMerger_order]; exact ho)
        (SortedSrcs_nextMerger m i hilt hsort)
        (by
          have := nextMerger_heads_ge m i u hinv ho hsort htop hu
          rw [show (nextMerger m i).order = m.order from rfl,
              show (nextMerger m i).keyDef = m.keyDef from rfl]
          exact this)
      rw [show (nextMerger m i).order = m.order from rfl,
          show (nextMerger m i).keyDef = m.keyDef from rfl] at hnext
      exact hnext

theorem initSource_head (seq : List Tuple) : (initSource seq).head = seq.head? := by
  cases seq <;> rfl

theorem srcList_initSource (seq : List Tuple) : srcList (initSource seq) = seq := by
  cases seq <;> simp [srcList, initSource, source_fetch]

theorem contents_initSource (seq : List Tuple) :
    contents (initSource seq) = (seq : Multiset Tuple) := by
  cases seq <;> simp [contents, initSource, source_fetch]

theorem startState_sources (kd : List Nat) (seqs : List (List Tuple)) (dir : Int) :
    (startState kd seqs dir).sources = seqs.map initSource := rfl

theorem startState_heap (kd : List Nat) (seqs : List (List Tuple)) (dir : Int) :
    (startState kd seqs dir).heap = (List.range (seqs.map initSource).length).filter
      fun i => (((seqs.map initSource).getD i d0).head).isSome := rfl

theorem startState_order (kd : List Nat) (seqs : List (List Tuple)) (dir : Int) :
    (startState kd seqs dir).order = dirSign dir := rfl

theorem startState_keyDef (kd : List Nat) (seqs : List (List Tuple)) (dir : Int) :
    (startState kd seqs dir).keyDef = kd := rfl

theorem getSource_startState (kd : List Nat) (seqs : List (List Tuple)) (dir : Int)
    (i : Nat) : getSource (startState kd seqs dir) i = (seqs.map initSource).getD i d0 := rfl

theorem dirSign_cases (dir : Int) : dirSign dir = 1 ∨ dirSign dir = -1 := by
  unfold dirSign
  split_ifs <;> simp

theorem Inv0_startState (kd : List Nat) (seqs : List (List Tuple)) (dir : Int) :
    Inv0 (startState kd seqs dir) := by
  refine ⟨?_, ?_, ?_, ?_⟩
  · intro i hi
    rw [startState_heap] at hi
    have h2 := List.mem_filter.mp hi
    rw [startState_sources, List.length_map] at *
    refine ⟨?_, ?_⟩
    · have := List.mem_range.mp h2.1
      simpa using this
    · rw [getSource_startState]
      exact h2.2
  · intro i hlt hsome
    rw [startState_heap]
    rw [startState_sources] at hlt
    refine List.mem_filter.mpr ⟨?_, ?_⟩
    · exact List.mem_range.mpr (by simpa using hlt)
    · rw [getSource_startState] at hsome
      exact hsome
  · rw [startState_heap]
    exact (List.nodup_range _).filter _
  · intro s hs hnone
    rw [startState_sources] at hs
    obtain ⟨seq, _, rfl⟩ := List.mem_map.mp hs
    rw [initSource_head] at hnone
    have : seq = [] := by
      cases seq with
      | nil => rfl
      | cons a l => simp at hnone
    subst this
    rfl

theorem RefsOK_startState (kd : List Nat) (seqs : List (List Tuple)) (dir : Int) :
    RefsOK (startState kd seqs dir) := by
  intro s hs
  rw [startState_sources] at hs
  obtain ⟨seq, _, rfl⟩ := List.mem_map.mp hs
  cases seq <;> simp [initSource, source_fetch]

theorem SortedSrcs_startState (kd : List Nat) (seqs : List (List Tuple)) (dir : Int)
    (h : ∀ seq ∈ seqs, List.Chain' (runLe (dirSign dir) kd) seq) :
    SortedSrcs (startState kd seqs dir) := by
  intro s hs
  rw [startState_sources] at hs
  obtain ⟨seq, hseq, rfl⟩ := List.mem_map.mp hs
  rw [srcList_initSource]
  exact h seq hseq

theorem getD_eq_get {α : Type} (l : List α) (i : Nat) (d : α) (h : i < l.length) :
    l.getD i d = l[i] := by
  induction l generalizing i with
  | nil => simp at h
  | cons y ys ih =>
    cases i with
    | zero => rfl
    | succ n => exact ih n (by simpa using h)

theorem card_sum_contents (l : List Source) :
    Multiset.card ((l.map contents).sum) = (l.map srcSize).sum := by
  induction l with
  | nil => simp
  | cons s ss ih => simp [ih, contents, srcSize]

theorem mergerContents_card (m : Merger) :
    Multiset.card (mergerContents m) = mergerSize m :=
  card_sum_contents m.sources

theorem heap_empty_contents (m : Merger) (hinv : Inv0 m) (h : m.heap = []) :
    mergerContents m = 0 := by
  rw [mergerContents]
  apply List.sum_eq_zero
  intro x hx
  obtain ⟨s, hsmem, rfl⟩ := List.mem_map.mp hx
  obtain ⟨i, hlt, hget⟩ := List.mem_iff_getElem.mp hsmem
  have hnone : s.head = none := by
    cases hh : s.head with
    | none => rfl
    | some t =>
      have hsm : (getSource m i).head.isSome := by
        rw [getSource, getD_eq_get m.sources i d0 hlt, hget, hh]
        rfl
      have := hinv.2.1 i hlt hsm
      rw [h] at this
      simp at this
  have hrest := hinv.2.2.2 s hsmem hnone
  simp [contents, hnone, hrest]

theorem run_contents (fuel : Nat) : ∀ (m : Merger), Inv0 m → mergerSize m ≤ fuel →
    ((run fuel m : List Tuple) : Multiset Tuple) = mergerContents m := by
  induction fuel with
  | zero =>
    intro m hinv hle
    have hsz : mergerSize m = 0 := Nat.le_zero.mp hle
    have hcard : Multiset.card (mergerContents m) = 0 := by
      rw [mergerContents_card, hsz]
    have hz : mergerContents m = 0 := Multiset.card_eq_zero.mp hcard
    simp [run, hz]
  | succ n ih =>
    intro m hinv hle
    cases htop : heapTop m with
    | none =>
      have hheap := (heapTop_eq_none m).mp htop
      have hz := heap_empty_contents m hinv hheap
      simp [run, merger_next_of_top_none m htop, hz]
    | some i =>
      obtain ⟨hilt, hisome⟩ := hinv.1 i (heapTop_mem m i htop)
      obtain ⟨t, ht⟩ := Option.isSome_iff_exists.mp hisome
      have hrun : run (n + 1) m = t :: run n (nextMerger m i) := by
        simp [run, merger_next_of_top_some m i htop, ht]
      rw [hrun]
      have hsz := mergerSize_next m i t hilt ht
      have hih := ih (nextMerger m i) (Inv0_nextMerger m i hinv htop) (by omega)
      have hcm := mergerContents_next m i t hilt ht
      rw [hcm, ← hih]
      simp

theorem refs_sum_eq_live (l : List Source)
    (h : ∀ s ∈ l, s.refs = if s.head.isSome then 1 else 0) :
    (l.map Source.refs).sum = (l.filter fun s => s.head.isSome).length := by
  induction l with
  | nil => simp
  | cons s ss ih =>
    have hs := h s (List.mem_cons_self s ss)
    have hss := ih fun x hx => h x (List.mem_cons_of_mem _ hx)
    by_cases hh : s.head.isSome = true
    · simp [List.filter_cons, hs, hss, hh]
      omega
    · simp [List.filter_cons, hs, hss, hh]

theorem invariants_stepN (k : Nat) : ∀ (m : Merger), Inv0 m → RefsOK m →
    Inv0 (stepN k m) ∧ RefsOK (stepN k m) := by
  induction k with
  | zero => intro m h1 h2; exact ⟨h1, h2⟩
  | succ n ih =>
    intro m h1 h2
    rw [stepN]
    cases htop : heapTop m with
    | none =>
      rw [merger_next_of_top_none m htop]
      exact ih m h1 h2
    | some i =>
      rw [merger_next_of_top_some m i htop]
      exact ih _ (Inv0_nextMerger m i h1 htop) (RefsOK_nextMerger m i h1 htop h2)

end HelperLemmas

/-- C1: for every merge run whose sources each supply a record sequence that
is sorted under the key definition and the chosen direction, the sequence of
tuples produced by repeated calls to next (up to end-of-stream) is sorted
under the same key definition and direction. -/
theorem C1_merge_output_sorted (kd : List Nat) (seqs : List (List Tuple)) (dir : Int)
    (fuel : Nat) (hs : ∀ seq ∈ seqs, List.Chain' (runLe (dirSign dir) kd) seq) :
    List.Chain' (runLe (dirSign dir) kd) (run fuel (startState kd seqs dir)) := by
  have h := run_chain fuel (startState kd seqs dir) (Inv0_startState kd seqs dir)
    (by rw [startState_order]; exact dirSign_cases dir)
    (SortedSrcs_startState kd seqs dir hs)
  rw [startState_order, startState_keyDef] at h
  exact h

/-- Witness for C1: spec scenario 1, two sorted buffer sources merged
ascending. -/
theorem C1_merge_output_sorted_witness :
    (∀ seq ∈ [[[(1 : Int)], [3], [5]], [[2], [4], [6]]],
      List.Chain' (runLe (dirSign 1) [0]) seq) ∧
    List.Chain' (runLe (dirSign 1) [0])
      (run 6 (startState [0] [[[(1 : Int)], [3], [5]], [[2], [4], [6]]] 1)) :=
  ⟨(ball_chainLe_iff (dirSign 1) [0] _).mp (by decide),
   C1_merge_output_sorted [0] [[[(1 : Int)], [3], [5]], [[2], [4], [6]]] 1 6
     ((ball_chainLe_iff (dirSign 1) [0] _).mp (by decide))⟩

/-- C2: for every successful merge run, the multiset of tuples emitted by
repeated next calls before end-of-stream equals the union of the multisets of
tuples supplied by the sources: no tuple is lost and none is emitted twice. -/
theorem C2_multiset_preservation (kd : List Nat) (seqs : List (List Tuple)) (dir : Int) :
    ((run (mergerSize (startState kd seqs dir)) (startState kd seqs dir) :
        List Tuple) : Multiset Tuple) =
      (seqs.map Multiset.ofList).sum := by
  have h := run_contents (mergerSize (startState kd seqs dir)) (startState kd seqs dir)
    (Inv0_startState kd seqs dir) le_rfl
  rw [h, mergerContents, startState_sources, List.map_map]
  congr 1
  apply List.map_congr_left
  intro seq _
  exact contents_initSource seq

/-- C4: every call to next behaves as the spec's algorithm: empty heap gives
end-of-stream; otherwise the head tuple of the heap-top cursor is emitted,
the cursor gives up its reference to it (its reference count afterwards is
exactly one per newly occupied head slot), the cursor is re-fetched, and it
is deleted from the heap when the new head is `none` and rebalanced with
unchanged membership otherwise. -/
theorem C4_next_algorithm (m : Merger) (hinv : Inv0 m) (hrefs : RefsOK m) :
    (heapTop m = none → merger_next m = (none, m)) ∧
    (∀ i, heapTop m = some i →
      ∃ t, (getSource m i).head = some t ∧
        (merger_next m).1 = some t ∧
        (merger_next m).2.sources = m.sources.set i (advSource (getSource m i)) ∧
        ((getSource (merger_next m).2 i).head = none →
          (merger_next m).2.heap = m.heap.erase i) ∧
        ((getSource (merger_next m).2 i).head.isSome →
          (merger_next m).2.heap = m.heap) ∧
        (getSource (merger_next m).2 i).refs =
          (if (getSource (merger_next m).2 i).head.isSome then 1 else 0)) := by
  constructor
  · exact merger_next_of_top_none m
  · intro i htop
    obtain ⟨hilt, hisome⟩ := hinv.1 i (heapTop_mem m i htop)
    obtain ⟨t, ht⟩ := Option.isSome_iff_exists.mp hisome
    refine ⟨t, ht, ?_, ?_, ?_, ?_, ?_⟩
    · rw [merger_next_of_top_some m i htop, ht]
    · rw [merger_next_of_top_some m i htop]
      exact nextMerger_sources m i
    · intro hnone
      rw [merger_next_of_top_some m i htop] at hnone ⊢
      rw [getSource_nextMerger_self m i hilt] at hnone
      rw [nextMerger_heap, hnone]
      rfl
    · intro hsome2
      rw [merger_next_of_top_some m i htop] at hsome2 ⊢
      rw [getSource_nextMerger_self m i hilt] at hsome2
      rw [nextMerger_heap]
      cases hh : (advSource (getSource m i)).head with
      | none => rw [hh] at hsome2; simp at hsome2
      | some u => simp
    · rw [merger_next_of_top_some m i htop, getSource_nextMerger_self m i hilt]
      have hone : (getSource m i).refs = 1 := by
        have := hrefs (getSource m i) (getD_mem _ _ _ hilt)
        rw [this, if_pos hisome]
      exact advSource_refs _ hone

/-- Witness for C4: a single one-tuple source (spec scenario 4). -/
theorem C4_next_algorithm_witness :
    Inv0 (startState [0] [[[(10 : Int)]]] 1) ∧ RefsOK (startState [0] [[[(10 : Int)]]] 1) ∧
    (heapTop (startState [0] [[[(10 : Int)]]] 1) = none →
      merger_next (startState [0] [[[(10 : Int)]]] 1) =
        (none, startState [0] [[[(10 : Int)]]] 1)) :=
  ⟨by decide, by decide,
    (C4_next_algorithm (startState [0] [[[(10 : Int)]]] 1) (by decide) (by decide)).1⟩

/-- C5: during a run started with integer direction `dir`, the heap's
less-predicate coincides with the spec's four cases (both `none` - not less;
left `none` - not less; right `none` - less; otherwise direction times
compare negative), where the direction sign is +1 when `dir` is at least 0
and -1 otherwise. -/
theorem C5_less_predicate (kd : List Nat) (seqs : List (List Tuple)) (dir : Int)
    (a b : Source) :
    source_less (startState kd seqs dir).order (startState kd seqs dir).keyDef a b =
      spec_less (if 0 ≤ dir then 1 else -1) kd a b := by
  rw [startState_order, startState_keyDef, dirSign]
  cases ha : a.head <;> cases hb : b.head <;> simp [source_less, spec_less, ha, hb]

theorem startLoop_emptyBuf (kd : List Nat) (fuel : Nat) (srcs : List Source)
    (heap : List Nat) : startLoop kd tblEmptyBuf fuel 0 srcs heap = none := by
  induction fuel with
  | zero => rfl
  | succ n ih =>
    rw [show startLoop kd tblEmptyBuf (n + 1) 0 srcs heap =
        startLoop kd tblEmptyBuf n 0 srcs heap from rfl]
    exact ih

theorem stopEntry_cases (e : Entry) (h : stopEntry e = true) :
    e = .nil ∨ e = .nonptr := by
  cases e <;> simp [stopEntry] at h ⊢

theorem attachable_cases (e : Entry) (h : attachable e = true) :
    (∃ seq, e = .func seq) ∨
      (∃ hdr records, e = .buf (some hdr) records ∧ validHeader hdr = true) := by
  cases e with
  | nil => simp [attachable] at h
  | nonptr => simp [attachable] at h
  | func seq => exact Or.inl ⟨seq, rfl⟩
  | buf header records =>
    cases header with
    | none => simp [attachable] at h
    | some hdr => exact Or.inr ⟨hdr, records, rfl, by simpa [attachable] using h⟩

theorem startLoop_stop_point (kd : List Nat) (tbl : Nat → Entry) (fuel count : Nat)
    (srcs : List Source) (heap : List Nat) (h : stopEntry (tbl (count + 1)) = true) :
    startLoop kd tbl (fuel + 1) count srcs heap = some (.ok (srcs, heap)) := by
  rcases stopEntry_cases _ h with he | he <;> simp [startLoop, he]

theorem startLoop_attach (kd : List Nat) (tbl : Nat → Entry) (fuel count : Nat)
    (srcs : List Source) (heap : List Nat) (h : attachable (tbl (count + 1)) = true) :
    startLoop kd tbl (fuel + 1) count srcs heap =
      startLoop kd tbl fuel (count + 1)
        (srcs ++ [initSource (entrySeq (tbl (count + 1)))])
        (heap ++ if (initSource (entrySeq (tbl (count + 1)))).head.isSome
          then [count] else []) := by
  rcases attachable_cases _ h with ⟨seq, he⟩ | ⟨hdr, records, he, hv⟩
  · simp [startLoop, he, entrySeq]
  · simp [startLoop, he, entrySeq, hv]

theorem startLoop_stop_aux (kd : List Nat) :
    ∀ (k : Nat) (tbl : Nat → Entry) (count : Nat) (srcs : List Source)
      (heap : List Nat),
      (∀ j < k, attachable (tbl (count + 1 + j)) = true) →
      stopEntry (tbl (count + 1 + k)) = true →
      ∃ r : List Source × List Nat,
        startLoop kd tbl (k + 1) count srcs heap = some (.ok r) ∧
        r.1.length = srcs.length + k ∧
        ∀ tbl2 : Nat → Entry,
          (∀ j < k, tbl2 (count + 1 + j) = tbl (count + 1 + j)) →
          stopEntry (tbl2 (count + 1 + k)) = true →
          startLoop kd tbl2 (k + 1) count srcs heap = some (.ok r) := by
  intro k
  induction k with
  | zero =>
    intro tbl count srcs heap hpre hstop
    refine ⟨(srcs, heap), ?_, by simp, ?_⟩
    · exact startLoop_stop_point kd tbl 0 count srcs heap (by simpa using hstop)
    · intro tbl2 _ hstop2
      exact startLoop_stop_point kd tbl2 0 count srcs heap (by simpa using hstop2)
  | succ k ih =>
    intro tbl count srcs heap hpre hstop
    have h0 : attachable (tbl (count + 1)) = true := by
      have := hpre 0 (Nat.succ_pos k)
      simpa using this
    have hrec := ih tbl (count + 1)
      (srcs ++ [initSource (entrySeq (tbl (count + 1)))])
      (heap ++ if (initSource (entrySeq (tbl (count + 1)))).head.isSome
        then [count] else [])
      (fun j hj => by
        have hx := hpre (j + 1) (by omega)
        have he : count + 1 + (j + 1) = count + 1 + 1 + j := by omega
        rw [he] at hx
        exact hx)
      (by
        have he : count + 1 + (k + 1) = count + 1 + 1 + k := by omega
        rw [he] at hstop
        exact hstop)
    obtain ⟨r, hr1, hr2, hr3⟩ := hrec
    refine ⟨r, ?_, ?_, ?_⟩
    · rw [startLoop_attach kd tbl (k + 1) count srcs heap h0]
      exact hr1
    · rw [List.length_append] at hr2
      simp only [List.length_cons, List.length_nil] at hr2
      omega
    · intro tbl2 hagree hstop2
      have h02 : tbl2 (count + 1) = tbl (count + 1) := by
        have := hagree 0 (Nat.succ_pos k)
        simpa using this
      rw [startLoop_attach kd tbl2 (k + 1) count srcs heap (by rw [h02]; exact h0)]
      rw [h02]
      exact hr3 tbl2
        (fun j hj => by
          have hx := hagree (j + 1) (by omega)
          have he : count + 1 + (j + 1) = count + 1 + 1 + j := by omega
          rw [he] at hx
          exact hx)
        (by
          have he : count + 1 + (k + 1) = count + 1 + 1 + k := by omega
          rw [he] at hstop2
          exact hstop2)

/-- C3: evidence of the code bug the claim misses: when a buffer producer
with `ibuf_used == 0` stands at table index 1, start does not skip it and
proceed - the `continue` of merger.c:214 re-runs the loop body without
advancing `merger->count`, so the same index is read again forever and start
never terminates, whatever fuel bound it is given. -/
theorem C3_empty_buffer_start_diverges (dir : Int) (fuel : Nat) :
    lboxStart (freshCMerger []) tblEmptyBuf dir fuel = .hang := by
  have h := startLoop_emptyBuf [] fuel [] []
  simp [lboxStart, freshCMerger, free_sources_ptr, h]

/-- C6: the InvalidSource half of the claim holds - a buffer whose header is
an array rather than the expected one-entry DATA map makes start fail and
leaves the merger logically empty - but the merger is NOT reusable as on a
fresh merger: the error path's `free_sources` leaves `merger->sources`
dangling (merger.c:161 does not clear the pointer), so any subsequent start
begins with `free` on the already freed pointer, a double free, whereas a
fresh merger's start succeeds. -/
theorem C6_invalid_source_double_free :
    lboxStart (freshCMerger []) tblBadHdr 1 1 =
      .invalidSource ⟨⟨[], [], 1, []⟩, .dangling⟩ ∧
    (∀ (tbl2 : Nat → Entry) (dir2 : Int) (fuel2 : Nat),
      lboxStart ⟨⟨[], [], 1, []⟩, .dangling⟩ tbl2 dir2 fuel2 = .doubleFree) ∧
    lboxStart (freshCMerger []) tblNil 1 1 = .ok ⟨⟨[], [], 1, []⟩, .alloc⟩ := by
  refine ⟨?_, ?_, ?_⟩
  · rfl
  · intro tbl2 dir2 fuel2
    rfl
  · rfl

/-- C9: start reads the source table at successive integer keys 1, 2, ...;
when the entries before position k+1 each attach a cursor and the entry at
position k+1 is nil or a value `lua_topointer` cannot convert, the loop stops
there without raising an error, start succeeds having attached exactly k
cursors, and the entries beyond the stopping point have no influence on the
result. -/
theorem C9_enumeration_stops (kd : List Nat) (tbl tbl2 : Nat → Entry) (k : Nat)
    (hpre : ∀ j < k, attachable (tbl (1 + j)) = true)
    (hagree : ∀ j < k, tbl2 (1 + j) = tbl (1 + j))
    (hstop : stopEntry (tbl (1 + k)) = true)
    (hstop2 : stopEntry (tbl2 (1 + k)) = true) :
    ∃ r : List Source × List Nat,
      startLoop kd tbl (k + 1) 0 [] [] = some (.ok r) ∧
      r.1.length = k ∧
      startLoop kd tbl2 (k + 1) 0 [] [] = some (.ok r) := by
  have haux := startLoop_stop_aux kd k tbl 0 [] []
    (by simpa using hpre) (by simpa using hstop)
  obtain ⟨r, h1, h2, h3⟩ := haux
  exact ⟨r, h1, by simpa using h2,
    h3 tbl2 (by simpa using hagree) (by simpa using hstop2)⟩

/-- Witness for C9: one function source, stop at index 2 (nil for one table,
a non-pointer value for the other), divergent tails beyond the stop. -/
theorem C9_enumeration_stops_witness :
    (∀ j < 1, attachable (tblW (1 + j)) = true) ∧
    (∃ r : List Source × List Nat,
      startLoop [] tblW 2 0 [] [] = some (.ok r) ∧
      r.1.length = 1 ∧
      startLoop [] tblW2 2 0 [] [] = some (.ok r)) :=
  ⟨by decide, C9_enumeration_stops [] tblW tblW2 1 (by decide)
    (fun j hj => by
      have hj0 : j = 0 := by omega
      subst hj0
      rfl)
    (by decide) (by decide)⟩

/-- C7: after any number of next calls on a started merger, the number of
tuple references held equals the number of live sources, each cursor with an
occupied head holding exactly one reference and drained cursors none. -/
theorem C7_reference_bound (kd : List Nat) (seqs : List (List Tuple)) (dir : Int)
    (k : Nat) :
    totalRefs (stepN k (startState kd seqs dir)) =
      liveCount (stepN k (startState kd seqs dir)) ∧
    RefsOK (stepN k (startState kd seqs dir)) := by
  obtain ⟨hinv, hrefs⟩ := invariants_stepN k (startState kd seqs dir)
    (Inv0_startState kd seqs dir) (RefsOK_startState kd seqs dir)
  exact ⟨refs_sum_eq_live _ hrefs, hrefs⟩

theorem parsePart_error_kind (d : PartDesc) (e : NewError)
    (h : parsePart d = .error e) : e = .invalidKeyPart := by
  cases hf : d.fieldno with
  | none => simp [parsePart, hf] at h; exact h.symm
  | some v =>
    cases ht : d.fieldType with
    | none => simp [parsePart, hf, ht] at h; exact h.symm
    | some ty =>
      by_cases hr : recognizedFieldType ty = true
      · simp [parsePart, hf, ht, hr] at h
      · simp [parsePart, hf, ht, hr] at h; exact h.symm

theorem parsePart_fields (d : PartDesc) (p : KeyPartDef) (h : parsePart d = .ok p) :
    p.nullable = d.nullable.getD false ∧ p.collId = none ∧
    ∃ v ty, d.fieldno = some v ∧ d.fieldType = some ty ∧
      recognizedFieldType ty = true ∧
      p = ⟨storedFieldno v, ty, d.nullable.getD false, none⟩ := by
  cases hf : d.fieldno with
  | none => simp [parsePart, hf] at h
  | some v =>
    cases ht : d.fieldType with
    | none => simp [parsePart, hf, ht] at h
    | some ty =>
      by_cases hr : recognizedFieldType ty = true
      · simp only [parsePart, hf, ht, hr, if_true] at h
        injection h with h
        subst h
        exact ⟨rfl, rfl, v, ty, rfl, rfl, hr, rfl⟩
      · simp [parsePart, hf, ht, hr] at h

theorem parsePart_good (d : PartDesc) (v : Int) (ty : String)
    (hv : d.fieldno = some v) (hty : d.fieldType = some ty)
    (hr : recognizedFieldType ty = true) :
    parsePart d = .ok ⟨storedFieldno v, ty, d.nullable.getD false, none⟩ := by
  simp [parsePart, hv, hty, hr]

theorem parsePart_bad (d : PartDesc)
    (h : d.fieldno = none ∨ d.fieldType = none ∨
      ∃ ty, d.fieldType = some ty ∧ recognizedFieldType ty = false) :
    parsePart d = .error .invalidKeyPart := by
  rcases h with hf | ht | ⟨ty, hty, hr⟩
  · simp [parsePart, hf]
  · cases hf : d.fieldno with
    | none => simp [parsePart, hf]
    | some v => simp [parsePart, hf, ht]
  · cases hf : d.fieldno with
    | none => simp [parsePart, hf]
    | some v => simp [parsePart, hf, hty, hr]

theorem newLoop_ok_valid (descs : List PartDesc) :
    ∀ (count capacity : Nat) (acc res : List KeyPartDef),
      newLoop descs count capacity acc = .ok res →
      ∀ d ∈ descs, ∃ p, parsePart d = .ok p := by
  induction descs with
  | nil => intro _ _ _ _ _ d hd; simp at hd
  | cons d0 ds ih =>
    intro count capacity acc res h d hd
    rw [newLoop] at h
    by_cases hc : count = capacity
    · rw [if_pos hc] at h
      by_cases h0 : capacity * 2 % 65536 = 0
      · rw [if_pos h0] at h
        simp at h
      · rw [if_neg h0] at h
        cases hp : parsePart d0 with
        | error e => simp [hp] at h
        | ok p =>
          simp only [hp] at h
          rcases List.mem_cons.mp hd with rfl | hd2
          · exact ⟨p, hp⟩
          · exact ih _ _ _ _ h d hd2
    · rw [if_neg hc] at h
      cases hp : parsePart d0 with
      | error e => simp [hp] at h
      | ok p =>
        simp only [hp] at h
        rcases List.mem_cons.mp hd with rfl | hd2
        · exact ⟨p, hp⟩
        · exact ih _ _ _ _ h d hd2

theorem newLoop_ok_mem (descs : List PartDesc) :
    ∀ (count capacity : Nat) (acc res : List KeyPartDef),
      newLoop descs count capacity acc = .ok res →
      res.length = acc.length + descs.length ∧
      ∀ q ∈ res, q ∈ acc ∨ ∃ d ∈ descs, parsePart d = .ok q := by
  induction descs with
  | nil =>
    intro count capacity acc res h
    simp [newLoop] at h
    subst h
    exact ⟨by simp, fun q hq => Or.inl hq⟩
  | cons d0 ds ih =>
    intro count capacity acc res h
    have hstep : ∀ (cap2 : Nat) (p : KeyPartDef), parsePart d0 = .ok p →
        newLoop ds ((count + 1) % 65536) cap2 (acc ++ [p]) = .ok res →
        res.length = acc.length + (d0 :: ds).length ∧
        ∀ q ∈ res, q ∈ acc ∨ ∃ d ∈ d0 :: ds, parsePart d = .ok q := by
      intro cap2 p hp hrec
      obtain ⟨hlen, hmem⟩ := ih _ _ _ _ hrec
      refine ⟨by simp at hlen ⊢; omega, ?_⟩
      intro q hq
      rcases hmem q hq with hacc | ⟨d, hd, hdq⟩
      · rcases List.mem_append.mp hacc with h1 | h1
        · exact Or.inl h1
        · rw [List.mem_singleton] at h1
          subst h1
          exact Or.inr ⟨d0, List.mem_cons_self d0 ds, hp⟩
      · exact Or.inr ⟨d, List.mem_cons_of_mem _ hd, hdq⟩
    rw [newLoop] at h
    by_cases hc : count = capacity
    · rw [if_pos hc] at h
      by_cases h0 : capacity * 2 % 65536 = 0
      · rw [if_pos h0] at h
        simp at h
      · rw [if_neg h0] at h
        cases hp : parsePart d0 with
        | error e => simp [hp] at h
        | ok p =>
          simp only [hp] at h
          exact hstep _ p hp h
    · rw [if_neg hc] at h
      cases hp : parsePart d0 with
      | error e => simp [hp] at h
      | ok p =>
        simp only [hp] at h
        exact hstep _ p hp h

theorem newLoop_ok_exists (descs : List PartDesc) :
    ∀ (count capacity : Nat) (acc : List KeyPartDef),
      (∀ d ∈ descs, ∃ p, parsePart d = .ok p) →
      0 < capacity → count + descs.length ≤ 32768 →
      ∃ res, newLoop descs count capacity acc = .ok res := by
  induction descs with
  | nil => intro _ _ acc _ _ _; exact ⟨acc, rfl⟩
  | cons d0 ds ih =>
    intro count capacity acc hall hcap hlen
    obtain ⟨p, hp⟩ := hall d0 (List.mem_cons_self d0 ds)
    simp only [List.length_cons] at hlen
    have hm : (count + 1) % 65536 = count + 1 := by omega
    by_cases hc : count = capacity
    · have hne : ¬ capacity * 2 % 65536 = 0 := by omega
      obtain ⟨res, hres⟩ := ih ((count + 1) % 65536) (capacity * 2 % 65536) (acc ++ [p])
        (fun d hd => hall d (List.mem_cons_of_mem _ hd)) (by omega) (by omega)
      refine ⟨res, ?_⟩
      rw [newLoop, if_pos hc, if_neg hne]
      simp only [hp]
      exact hres
    · obtain ⟨res, hres⟩ := ih ((count + 1) % 65536) capacity (acc ++ [p])
        (fun d hd => hall d (List.mem_cons_of_mem _ hd)) hcap (by omega)
      refine ⟨res, ?_⟩
      rw [newLoop, if_neg hc]
      simp only [hp]
      exact hres

theorem newLoop_bad_err (descs : List PartDesc) :
    ∀ (count capacity : Nat) (acc : List KeyPartDef),
      (∃ d ∈ descs, parsePart d = .error .invalidKeyPart) →
      0 < capacity → count + descs.length ≤ 32768 →
      newLoop descs count capacity acc = .err .invalidKeyPart := by
  induction descs with
  | nil => intro _ _ _ hbad _ _; obtain ⟨d, hd, _⟩ := hbad; simp at hd
  | cons d0 ds ih =>
    intro count capacity acc hbad hcap hlen
    simp only [List.length_cons] at hlen
    cases hp : parsePart d0 with
    | error e =>
      have he := parsePart_error_kind d0 e hp
      subst he
      by_cases hc : count = capacity
      · have hne : ¬ capacity * 2 % 65536 = 0 := by omega
        rw [newLoop, if_pos hc, if_neg hne]
        simp [hp]
      · rw [newLoop, if_neg hc]
        simp [hp]
    | ok p =>
      obtain ⟨d, hd, hderr⟩ := hbad
      have hd2 : d ∈ ds := by
        rcases List.mem_cons.mp hd with rfl | h2
        · rw [hp] at hderr; cases hderr
        · exact h2
      by_cases hc : count = capacity
      · have hne : ¬ capacity * 2 % 65536 = 0 := by omega
        rw [newLoop, if_pos hc, if_neg hne]
        simp only [hp]
        exact ih ((count + 1) % 65536) (capacity * 2 % 65536) (acc ++ [p])
          ⟨d, hd2, hderr⟩ (by omega) (by omega)
      · rw [newLoop, if_neg hc]
        simp only [hp]
        exact ih ((count + 1) % 65536) capacity (acc ++ [p])
          ⟨d, hd2, hderr⟩ hcap (by omega)

theorem newLoop_fill (d : PartDesc) (p : KeyPartDef) (hok : parsePart d = .ok p) :
    ∀ (n count capacity : Nat) (acc : List KeyPartDef) (ys : List PartDesc),
      count + n = capacity → capacity < 65536 →
      newLoop (List.replicate n d ++ ys) count capacity acc =
        newLoop ys capacity capacity (acc ++ List.replicate n p) := by
  intro n
  induction n with
  | zero =>
    intro count capacity acc ys hcc _
    simp only [Nat.add_zero] at hcc
    subst hcc
    simp
  | succ k ih =>
    intro count capacity acc ys hcc hlt
    have hc : ¬ count = capacity := by omega
    have hm : (count + 1) % 65536 = count + 1 := by omega
    rw [List.replicate_succ, List.cons_append]
    rw [show newLoop (d :: (List.replicate k d ++ ys)) count capacity acc =
        newLoop (List.replicate k d ++ ys) (count + 1) capacity (acc ++ [p]) from by
      rw [newLoop, if_neg hc]
      simp only [hok, hm]]
    rw [ih (count + 1) capacity (acc ++ [p]) ys (by omega) hlt]
    congr 1
    rw [List.append_assoc]
    simp [List.replicate_succ]

theorem newLoop_seg (d : PartDesc) (p : KeyPartDef) (hok : parsePart d = .ok p)
    (capacity cap2 : Nat) (acc : List KeyPartDef) (ys : List PartDesc)
    (h1 : 0 < capacity) (h2 : capacity * 2 < 65536) (hc2 : cap2 = capacity * 2) :
    newLoop (List.replicate capacity d ++ ys) capacity capacity acc =
      newLoop ys cap2 cap2 (acc ++ List.replicate capacity p) := by
  subst hc2
  obtain ⟨c, rfl⟩ : ∃ c, capacity = c + 1 := ⟨capacity - 1, by omega⟩
  rw [List.replicate_succ, List.cons_append]
  have hne : ¬ (c + 1) * 2 % 65536 = 0 := by omega
  have hmod : (c + 1) * 2 % 65536 = (c + 1) * 2 := by omega
  have hm : (c + 1 + 1) % 65536 = c + 2 := by omega
  rw [show newLoop (d :: (List.replicate c d ++ ys)) (c + 1) (c + 1) acc =
      newLoop (List.replicate c d ++ ys) (c + 2) ((c + 1) * 2) (acc ++ [p]) from by
    rw [newLoop, if_pos rfl, if_neg hne]
    simp only [hok, hm, hmod]]
  rw [newLoop_fill d p hok c (c + 2) ((c + 1) * 2) (acc ++ [p]) ys (by omega) (by omega)]
  congr 1
  rw [List.append_assoc]
  simp [List.replicate_succ]

theorem newLoop_overflow (d : PartDesc) (acc : List KeyPartDef) (ys : List PartDesc) :
    newLoop (d :: ys) 32768 32768 acc = .undefinedBehavior := by
  rw [newLoop, if_pos rfl, if_pos (by norm_num)]

theorem newLoop_ub_32769 (d : PartDesc) (p : KeyPartDef) (hok : parsePart d = .ok p) :
    newLoop (List.replicate 32769 d) 0 8 [] = .undefinedBehavior := by
  have hsplit : List.replicate 32769 d =
      List.replicate 8 d ++ (List.replicate 8 d ++ (List.replicate 16 d ++
      (List.replicate 32 d ++ (List.replicate 64 d ++ (List.replicate 128 d ++
      (List.replicate 256 d ++ (List.replicate 512 d ++ (List.replicate 1024 d ++
      (List.replicate 2048 d ++ (List.replicate 4096 d ++ (List.replicate 8192 d ++
      (List.replicate 16384 d ++ List.replicate 1 d)))))))))))) := by
    simp only [← List.replicate_add]
  rw [hsplit]
  rw [newLoop_fill d p hok 8 0 8 [] _ (by norm_num) (by norm_num)]
  rw [newLoop_seg d p hok 8 16 _ _ (by norm_num) (by norm_num) (by norm_num)]
  rw [newLoop_seg d p hok 16 32 _ _ (by norm_num) (by norm_num) (by norm_num)]
  rw [newLoop_seg d p hok 32 64 _ _ (by norm_num) (by norm_num) (by norm_num)]
  rw [newLoop_seg d p hok 64 128 _ _ (by norm_num) (by norm_num) (by norm_num)]
  rw [newLoop_seg d p hok 128 256 _ _ (by norm_num) (by norm_num) (by norm_num)]
  rw [newLoop_seg d p hok 256 512 _ _ (by norm_num) (by norm_num) (by norm_num)]
  rw [newLoop_seg d p hok 512 1024 _ _ (by norm_num) (by norm_num) (by norm_num)]
  rw [newLoop_seg d p hok 1024 2048 _ _ (by norm_num) (by norm_num) (by norm_num)]
  rw [newLoop_seg d p hok 2048 4096 _ _ (by norm_num) (by norm_num) (by norm_num)]
  rw [newLoop_seg d p hok 4096 8192 _ _ (by norm_num) (by norm_num) (by norm_num)]
  rw [newLoop_seg d p hok 8192 16384 _ _ (by norm_num) (by norm_num) (by norm_num)]
  rw [newLoop_seg d p hok 16384 32768 _ _ (by norm_num) (by norm_num) (by norm_num)]
  exact newLoop_overflow d _ _

/-- C8, corrected: the claim as frozen quantifies over descriptor sequences
of every length, but `lbox_merger_new` holds `count` and `capacity` in
`uint16_t` (merger.c:316), and at the 32769th descriptor `capacity *= 2`
wraps to 0, making `realloc(parts, 0)` and the following out-of-bounds write
undefined behavior.  Amended scope: sequences of at most 32768 descriptors.
Within it, new succeeds exactly on non-empty sequences in which every
descriptor carries a fieldno and a recognised type; the stored parts have a
non-negative (unsigned) field index, nullability defaulting to false and
collation none; a missing fieldno or type or an unknown type raises the
invalid-key-part error and no merger is constructed. -/
theorem C8_new_validation (descs : List PartDesc) (hlen : descs.length ≤ 32768) :
    ((∃ kd, merger_new descs = .ok kd) ↔
      (descs ≠ [] ∧ ∀ d ∈ descs, d.fieldno.isSome ∧
        ∃ ty, d.fieldType = some ty ∧ recognizedFieldType ty = true)) ∧
    (∀ kd, merger_new descs = .ok kd → kd.length = descs.length ∧
      ∀ p ∈ kd, p.collId = none) ∧
    (∀ d p, parsePart d = .ok p →
      p.nullable = d.nullable.getD false ∧ p.collId = none) ∧
    ((∃ d ∈ descs, d.fieldno = none ∨ d.fieldType = none ∨
        ∃ ty, d.fieldType = some ty ∧ recognizedFieldType ty = false) →
      merger_new descs = .err .invalidKeyPart) := by
  refine ⟨?_, ?_, ?_, ?_⟩
  · constructor
    · rintro ⟨kd, hkd⟩
      cases hl : newLoop descs 0 8 [] with
      | undefinedBehavior => simp [merger_new, hl] at hkd
      | err e => simp [merger_new, hl] at hkd
      | ok parts =>
        refine ⟨?_, ?_⟩
        · intro hdesc
          subst hdesc
          have hl2 : parts = [] := by
            have h3 : (NewResult.ok ([] : List KeyPartDef)) = .ok parts := hl
            injection h3 with h4
            exact h4.symm
          subst hl2
          rw [show merger_new ([] : List PartDesc) = .err .keyDefFail from rfl] at hkd
          simp at hkd
        · intro d hd
          obtain ⟨p, hp⟩ := newLoop_ok_valid descs 0 8 [] parts hl d hd
          obtain ⟨_, _, v, ty, hv, hty, hr, _⟩ := parsePart_fields d p hp
          exact ⟨by simp [hv], ty, hty, hr⟩
    · rintro ⟨hne, hall⟩
      have hall2 : ∀ d ∈ descs, ∃ p, parsePart d = .ok p := by
        intro d hd
        obtain ⟨hsome, ty, hty, hr⟩ := hall d hd
        obtain ⟨v, hv⟩ := Option.isSome_iff_exists.mp hsome
        exact ⟨_, parsePart_good d v ty hv hty hr⟩
      obtain ⟨res, hres⟩ := newLoop_ok_exists descs 0 8 [] hall2 (by norm_num)
        (by omega)
      have hrl : res.length = descs.length := by
        have := (newLoop_ok_mem descs 0 8 [] res hres).1
        simpa using this
      have hre : res.isEmpty = false := by
        cases res with
        | nil =>
          simp at hrl
          exact absurd (List.length_eq_zero.mp hrl.symm) hne
        | cons a l => rfl
      exact ⟨res, by simp [merger_new, hres, key_def_new, hre]⟩
  · intro kd hkd
    cases hl : newLoop descs 0 8 [] with
    | undefinedBehavior => simp [merger_new, hl] at hkd
    | err e => simp [merger_new, hl] at hkd
    | ok parts =>
      cases hkdn : key_def_new parts with
      | none => simp [merger_new, hl, hkdn] at hkd
      | some kd2 =>
        simp [merger_new, hl, hkdn] at hkd
        have hkp : kd2 = parts := by
          rw [key_def_new] at hkdn
          by_cases he : parts.isEmpty
          · rw [if_pos he] at hkdn; cases hkdn
          · rw [if_neg he] at hkdn; injection hkdn with h2; exact h2.symm
        subst hkp
        subst hkd
        obtain ⟨hlen2, hmem⟩ := newLoop_ok_mem descs 0 8 [] kd2 hl
        refine ⟨by simpa using hlen2, ?_⟩
        intro p hp
        rcases hmem p hp with hacc | ⟨d, _, hdp⟩
        · simp at hacc
        · exact (parsePart_fields d p hdp).2.1
  · intro d p hp
    exact ⟨(parsePart_fields d p hp).1, (parsePart_fields d p hp).2.1⟩
  · rintro ⟨d, hd, hbad⟩
    have herr : parsePart d = .error .invalidKeyPart := parsePart_bad d hbad
    have hl := newLoop_bad_err descs 0 8 [] ⟨d, hd, herr⟩ (by norm_num) (by omega)
    simp [merger_new, hl]

/-- Counterexample for C8 as frozen: 32769 copies of a fully valid
descriptor form a non-empty sequence meeting every construction constraint,
yet new does not succeed on it - the uint16_t capacity doubling wraps to 0
at the 32769th descriptor and the run is undefined behavior. -/
theorem C8_new_validation_counterexample :
    (List.replicate 32769 (⟨some 1, some "unsigned", none⟩ : PartDesc) ≠ [] ∧
      ∀ d ∈ List.replicate 32769 (⟨some 1, some "unsigned", none⟩ : PartDesc),
        d.fieldno.isSome ∧ ∃ ty, d.fieldType = some ty ∧
          recognizedFieldType ty = true) ∧
    merger_new (List.replicate 32769 ⟨some 1, some "unsigned", none⟩) =
      .undefinedBehavior := by
  refine ⟨⟨?_, ?_⟩, ?_⟩
  · intro hnil
    have hlen := congrArg List.length hnil
    rw [List.length_replicate, List.length_nil] at hlen
    exact absurd hlen (by norm_num)
  · intro d hd
    rw [List.eq_of_mem_replicate hd]
    exact ⟨rfl, "unsigned", rfl, by decide⟩
  · have hok : parsePart (⟨some 1, some "unsigned", none⟩ : PartDesc) =
        .ok ⟨0, "unsigned", false, none⟩ := rfl
    have h := newLoop_ub_32769 ⟨some 1, some "unsigned", none⟩
      ⟨0, "unsigned", false, none⟩ hok
    simp only [merger_new, h]

/-- Witness for C8: within the amended scope, a valid one-part descriptor
list is accepted; an unknown type and a missing fieldno are rejected with
the invalid-key-part error. -/
theorem C8_new_validation_witness :
    ([⟨some 1, some "unsigned", none⟩] : List PartDesc).length ≤ 32768 ∧
    (∃ kd, merger_new [⟨some 1, some "unsigned", none⟩] = .ok kd) ∧
    merger_new [⟨some 1, some "wrongtype", none⟩] = .err .invalidKeyPart ∧
    merger_new [⟨none, some "unsigned", none⟩] = .err .invalidKeyPart :=
  ⟨by decide,
   (C8_new_validation [⟨some 1, some "unsigned", none⟩] (by decide)).1.mpr
    ⟨by simp, fun d hd => by
      rw [List.mem_singleton] at hd
      subst hd
      exact ⟨rfl, "unsigned", rfl, by decide⟩⟩,
   (C8_new_validation [⟨some 1, some "wrongtype", none⟩] (by decide)).2.2.2
    ⟨⟨some 1, some "wrongtype", none⟩, List.mem_singleton.mpr rfl,
      Or.inr (Or.inr ⟨"wrongtype", rfl, by decide⟩)⟩,
   (C8_new_validation [⟨none, some "unsigned", none⟩] (by decide)).2.2.2
    ⟨⟨none, some "unsigned", none⟩, List.mem_singleton.mpr rfl, Or.inl rfl⟩⟩

/-- C10: the stored field index is the descriptor's one-based fieldno minus
one, assigned to a uint32_t, so it is reduced modulo 2^32 with no lower-bound
check: in the one-based range the stored index is fieldno - 1, and fieldno 0
is not rejected - it is accepted and its stored index wraps to 2^32 - 1. -/
theorem C10_fieldno_wrap (v : Int) :
    (∀ ty, recognizedFieldType ty = true →
      parsePart ⟨some v, some ty, none⟩ = .ok ⟨storedFieldno v, ty, false, none⟩) ∧
    (1 ≤ v → v ≤ 4294967296 → (storedFieldno v : Int) = v - 1) ∧
    storedFieldno 0 = 4294967295 := by
  refine ⟨?_, ?_, ?_⟩
  · intro ty hty
    simp [parsePart, hty]
  · intro h1 h2
    rw [storedFieldno, UINT32_MOD]
    omega
  · rw [storedFieldno, UINT32_MOD]
    rfl

/-- Witness for C10: a descriptor with fieldno 0 is accepted and stores
index 2^32 - 1. -/
theorem C10_fieldno_wrap_witness :
    recognizedFieldType "unsigned" = true ∧
    parsePart ⟨some 0, some "unsigned", none⟩ =
      .ok ⟨4294967295, "unsigned", false, none⟩ := by
  refine ⟨by decide, ?_⟩
  have h := (C10_fieldno_wrap 0).1 "unsigned" (by decide)
  rw [(C10_fieldno_wrap 0).2.2] at h
  exact h

end MergerModel
